import Mathlib

/-!
Shallow embedding of `plugin/to_task.py` (class `AnnotationToTask`) from the
`pre-annotation-to-task` plugin repository, together with proofs about the
key-renumbering normalizer, the conversion dispatcher and the staging logic.

Python dictionaries are modelled as association lists in insertion order
(`List (String × Val)`); Python strings as `String`; the HTTP transport, the
JSON parser and the external format converters as oracle fields of an `Env`
record; the filesystem side effects as an explicit state `St` threaded through
each embedded function, together with an event log recording the observable
actions (directory creation, HTTP requests, file writes and removals, decoder
invocations) in program order.
-/

/-- JSON-like values: mappings (in insertion order) and opaque non-mapping
payloads.  The plugin never interprets non-mapping payloads, so numbers,
strings and arrays are collapsed into an opaque `leaf` tagged by a `Nat`. -/
inductive Val where
  | leaf : Nat → Val
  | vdict : List (String × Val) → Val

/-- ASCII decimal digit test, the `\d` of the regular expression `_\d+$` used
at `to_task.py:311` (the keys at issue are ASCII). -/
def isDigitCh (c : Char) : Bool := '0' ≤ c && c ≤ '9'

/-- Embedding of `re.sub(r'_\d+$', '', key)` (`to_task.py:311`): strip one
trailing group `_<digits>` (the digit run maximal, preceded by an underscore);
when the key does not end in such a group it is returned unchanged. -/
def baseKey (s : String) : String :=
  let r := s.data.reverse
  if (r.takeWhile isDigitCh).isEmpty then s
  else
    match r.dropWhile isDigitCh with
    | '_' :: rest => ⟨rest.reverse⟩
    | _ => s

/-- Embedding of the f-string `f'{base_key}_{i}'` (`to_task.py:317`); `Nat.repr`
is the decimal rendering of the Python integer `i`. -/
def newKey (b : String) (i : Nat) : String := b ++ "_" ++ Nat.repr i

/-- One insertion into the `base_key_groups` mapping
(`base_key_groups[base_key].append(key)`, `to_task.py:312`): a
`defaultdict(list)` appends to the bucket of `b` when that bucket exists and
otherwise creates a fresh bucket at the end, preserving insertion order.  The
bucket stores the key/value pairs; since Python dictionary keys are unique,
carrying the value along with the key is the same as the source's later lookup
`nested_dict[original_key]` (`to_task.py:318`). -/
def addToGroup : List (String × List (String × Val)) → String → (String × Val) →
    List (String × List (String × Val))
  | [], b, p => [(b, [p])]
  | (b', ps) :: rest, b, p =>
    if b' = b then (b', ps ++ [p]) :: rest else (b', ps) :: addToGroup rest b p

/-- The first pass of `_normalize_dm_schema_v1_keys_with_incremental_numbers`
(`to_task.py:306-312`): group the section's entries by base key, buckets in
first-appearance order of the base, bucket members in original order. -/
def baseKeyGroups (l : List (String × Val)) : List (String × List (String × Val)) :=
  l.foldl (fun gs p => addToGroup gs (baseKey p.1) p) []

/-- The inner loop `for i, original_key in enumerate(original_keys, 1)`
(`to_task.py:316-318`): the `i`-th member (1-indexed) of a bucket for base `b`
is re-keyed to `<b>_<i>`, keeping its value. -/
def numberGroup (b : String) : Nat → List (String × Val) → List (String × Val)
  | _, [] => []
  | i, p :: ps => (newKey b i, p.2) :: numberGroup b (i + 1) ps

/-- Embedding of `_normalize_dm_schema_v1_keys_with_incremental_numbers`
(`to_task.py:288-320`) restricted to genuine mappings (the
`not isinstance(nested_dict, dict)` early return is handled at the caller in
`normalizeNested`): group the entries by base key, then emit the buckets in
order, renumbering each bucket 1..n.  The output order is the insertion order
of `normalized_dict`: bucket by bucket. -/
def renumberSection (l : List (String × Val)) : List (String × Val) :=
  (baseKeyGroups l).flatMap (fun g => numberGroup g.1 1 g.2)

/-- The five structurally significant sections, `target_keys`
(`to_task.py:274`). -/
def targetKeys : List String :=
  ["extra", "relations", "annotations", "annotationsData", "annotationGroups"]

/-- Embedding of `_normalize_dm_schema_v1_nested_dictionary_keys`
(`to_task.py:260-286`) on a record that is a mapping: each of the five target
sections that is present and is itself a mapping is replaced (in place, hence
at its original position) by its renumbered form; every other entry passes
through unchanged.  The source first takes `copy.deepcopy(data)`
(`to_task.py:277`) and mutates only the copy, which is what makes this
embedding a pure function of its input. -/
def normalizeNested (record : List (String × Val)) : List (String × Val) :=
  record.map (fun p =>
    if p.1 ∈ targetKeys then
      match p.2 with
      | Val.vdict l => (p.1, Val.vdict (renumberSection l))
      | _ => p
    else p)

/-- The positional key alignment built by
`compare_normalized_dm_schema_v1_before_after` (`to_task.py:396-405`) for one
section: original and normalized key lists are zipped by position (the
reported `changed` flag is inequality of the two keys of a pair). -/
def keyMappings (orig norm : List (String × Val)) : List (String × String) :=
  (orig.map Prod.fst).zip (norm.map Prod.fst)

/-- Embedding of `yolo_class_names.replace(' ', '')` (`to_task.py:49`):
remove every space character. -/
def removeSpaces (s : String) : String := ⟨s.data.filter (fun c => c ≠ ' ')⟩

/-- Python's `str.split(sep)` for a one-character separator, on the character
list: `""` splits to `[""]`, separators at the ends produce empty fields. -/
def splitOnChar (sep : Char) : List Char → List (List Char)
  | [] => [[]]
  | c :: rest =>
    if c = sep then [] :: splitOnChar sep rest
    else
      match splitOnChar sep rest with
      | g :: gs => (c :: g) :: gs
      | [] => [[c]]

/-- The class-name list the dispatcher derives for the YOLO decoder
(`to_task.py:49`): `yolo_class_names.replace(' ', '').split(',')`. -/
def deriveClassNames (s : String) : List String :=
  (splitOnChar ',' (removeSpaces s).data).map (fun cs => (⟨cs⟩ : String))

/-- Strip leading and trailing spaces from a character list (the per-entry
trim of the specification's intended contract). -/
def trimSpaces (cs : List Char) : List Char :=
  ((cs.dropWhile (fun c => c = ' ')).reverse.dropWhile (fun c => c = ' ')).reverse

/-- Modelled from the spec: the intended class-name contract the specification
states for the YOLO branch — split the parameter on commas, then trim the
surrounding whitespace of each entry (whitespace interior to a label is
preserved).  This is the comparison point for the refinement claim about
`deriveClassNames`; it is not the source's behaviour. -/
def specTrimSplit (s : String) : List String :=
  (splitOnChar ',' s.data).map (fun cs => (⟨trimSpaces cs⟩ : String))

/-- `str.splitlines()` for newline-separated text: split on `'\n'`, dropping
the trailing empty field a terminal newline would create (Python's additional
line separators such as `'\r'` do not occur in the modelled bodies). -/
def splitLines (s : String) : List String :=
  if s.data.isEmpty then []
  else
    let gs := splitOnChar '\n' s.data
    (if gs.getLast? = some [] then gs.dropLast else gs).map (fun cs => (⟨cs⟩ : String))

/-- Python exceptions the embedded code can raise. -/
inductive PyError where
  /-- `requests.exceptions.HTTPError` raised by `response.raise_for_status()`
  for a status code in 400..599. -/
  | httpError (status : Nat)
  /-- `ValueError` (JSON decode errors included, since Python's
  `JSONDecodeError` subclasses it). -/
  | valueError (msg : String)
  /-- `KeyError` from a mapping subscript. -/
  | keyError (k : String)
  /-- `FileNotFoundError` from `open()` on a missing path. -/
  | fileNotFound (p : String)
  /-- `TypeError`. -/
  | typeError (msg : String)
  deriving DecidableEq

/-- Observable actions of one invocation, in program order.  A `decode` event
records the decoder invoked and a snapshot of the files present in the
filesystem at that moment. -/
inductive Event where
  | mkdirs (p : String)
  | httpGet (url : String)
  | fileWrite (p : String)
  | fileRemove (p : String)
  | dirRemove (p : String)
  | decode (fmt : String) (filesOnDisk : List String)
  deriving DecidableEq

/-- The mutable world: files (path with content), directories, and the event
log. -/
structure St where
  fs : List (String × String)
  dirs : List String
  events : List Event
  deriving DecidableEq

/-- The empty workspace. -/
def st0 : St := ⟨[], [], []⟩

/-- Paths of the files currently on disk. -/
def fsPaths (st : St) : List String := st.fs.map Prod.fst

/-- `os.path.exists` for a file path. -/
def fsHas (st : St) (p : String) : Bool := st.fs.any (fun q => q.1 = p)

/-- `os.path.exists` for a directory path. -/
def dirHas (st : St) (p : String) : Bool := st.dirs.any (fun d => d = p)

/-- `os.makedirs(p, exist_ok=True)`. -/
def stMkdirs (st : St) (p : String) : St :=
  { st with dirs := if dirHas st p then st.dirs else st.dirs ++ [p],
            events := st.events ++ [Event.mkdirs p] }

/-- `open(p, 'wb').write(content)`: create or overwrite in place. -/
def stWrite (st : St) (p c : String) : St :=
  { st with
    fs := if fsHas st p then st.fs.map (fun q => if q.1 = p then (p, c) else q)
          else st.fs ++ [(p, c)],
    events := st.events ++ [Event.fileWrite p] }

/-- `os.remove(p)`. -/
def stRemove (st : St) (p : String) : St :=
  { st with fs := st.fs.filter (fun q => q.1 ≠ p),
            events := st.events ++ [Event.fileRemove p] }

/-- `os.rmdir(p)`. -/
def stRmdir (st : St) (p : String) : St :=
  { st with dirs := st.dirs.filter (fun d => d ≠ p),
            events := st.events ++ [Event.dirRemove p] }

/-- `open(p, 'r').read()`: the content, when the file exists. -/
def fsRead (st : St) (p : String) : Option String :=
  (st.fs.find? (fun q => q.1 = p)).map Prod.snd

/-- Log one `requests.get(url)` call. -/
def stGet (st : St) (url : String) : St :=
  { st with events := st.events ++ [Event.httpGet url] }

/-- Log one external decoder invocation, snapshotting the files on disk. -/
def stDecode (st : St) (fmt : String) : St :=
  { st with events := st.events ++ [Event.decode fmt (fsPaths st)] }

/-- Path `d` lies at or under directory path `p` (string-prefix test on the
POSIX paths at issue). -/
def underDir (p d : String) : Bool := p.data.isPrefixOf d.data

/-- `os.listdir(p)` is nonempty iff some other directory or some file lives
under `p` (the created `images/` and `labels/` sub-directories count, as they
do for Python's `os.listdir`). -/
def hasChild (st : St) (p : String) : Bool :=
  st.dirs.any (fun d => d ≠ p && underDir p d) || st.fs.any (fun q => underDir p q.1)

/-- `os.path.basename` for the POSIX paths at issue: the text after the last
`'/'`. -/
def osBasename (s : String) : String :=
  ⟨(s.data.reverse.takeWhile (fun c => c ≠ '/')).reverse⟩

/-- `os.path.splitext` on a basename: split off the extension at the last dot,
except that a stem consisting only of dots (a hidden file such as `.txt`)
carries no extension. -/
def splitExt (s : String) : String × String :=
  let r := s.data.reverse
  let afterDot := r.takeWhile (fun c => c ≠ '.')
  if afterDot.length = r.length then (s, "")
  else
    let stem := r.drop (afterDot.length + 1)
    if stem.all (fun c => c = '.') then (s, "")
    else (⟨stem.reverse⟩, ⟨'.' :: afterDot.reverse⟩)

/-- `os.path.join(a, b)` for the single-component joins of the source: an
absolute `b` wins; otherwise the separator is inserted unless `a` is empty or
already ends with `'/'`. -/
def osPathJoin (a b : String) : String :=
  if b.data.head? = some '/' then b
  else if a = "" ∨ a.data.getLast? = some '/' then a ++ b
  else a ++ "/" ++ b

/-- Python's `x or default` for strings: the default iff `x` is empty. -/
def strOr (s d : String) : String := if s = "" then d else s

/-- Python `d[k]` on a mapping: the value, when the key is present. -/
def dictGet (entries : List (String × Val)) (k : String) : Option Val :=
  (entries.find? (fun q => q.1 = k)).map Prod.snd

/-- The external collaborators, as oracles: the URL parser and transport, the
JSON parser, the four format converters and the DM v2 → v1 normalizer, plus
the ambient `project_base_path` of the deployment (`to_task.py:44`). -/
structure Env where
  /-- `urllib.parse.urlparse(url).path`. -/
  urlPath : String → String
  /-- `requests.get(url)`: status code and body (bytes as a string). -/
  httpGet : String → Nat × String
  /-- `response.json()`: the parsed document, or the message of the
  `ValueError` it raises. -/
  parseJson : String → Except String Val
  /-- `YOLOToDMConverter(temp, False, True, class_names)
  .convert_single_file(lines, f)`: class names, annotation lines, primary file
  content. -/
  yoloConvert : List String → List String → String → Except PyError Val
  /-- `COCOToDMConverter(temp, False, True)
  .convert_single_file(json, f, original_name)`. -/
  cocoConvert : Val → String → String → Except PyError Val
  /-- `PascalToDMConverter(temp, False, True).convert_single_file(text, f)`. -/
  pascalConvert : String → String → Except PyError Val
  /-- `DMV2ToV1Converter().convert(x)` (the YOLO branch's call shape). -/
  dmV2NoKind : Val → Except PyError Val
  /-- `DMV2ToV1Converter(x, kind).convert()` (the other branches). -/
  dmV2Kind : Val → String → Except PyError Val
  /-- `os.path.dirname(os.path.dirname(os.path.abspath(__file__)))`. -/
  projectBase : String

/-- The `# Delete temp files` block (`to_task.py:99-109`, likewise `156-166`
and `206-216`): best-effort scoped release — remove each staged file if
present, then remove the workspace root only when `os.listdir` finds it empty.
`OSError` is swallowed there; removals in this model cannot fail, so the
`except` clause is inert. -/
def cleanupTemp (st : St) (primaryPath dataPath tempPath : String) : St :=
  let st := if fsHas st primaryPath then stRemove st primaryPath else st
  let st := if fsHas st dataPath then stRemove st dataPath else st
  if dirHas st tempPath && !hasChild st tempPath then stRmdir st tempPath else st

/-- Embedding of `AnnotationToTask._convert_yolo` (`to_task.py:66-114`),
returning the Python result (or raised exception) with the final state.  The
source has no `try`/`finally`: the cleanup block at lines 99-109 is reached
only when both fetches and the decode succeed, so an exception raised earlier
leaves any already-written file in place.  The computed `dataFilePath` is
never written: the annotation body is fetched into memory
(`data_file_content`) and handed to the decoder directly. -/
def convertYolo (env : Env) (primaryFileUrl dataFileUrl tempPath : String)
    (classNames : List String) (st : St) : Except PyError Val × St :=
  let tempPrimaryPath := tempPath ++ "/images/"
  let tempDataPath := tempPath ++ "/labels/"
  let st := stMkdirs st tempPath
  let st := stMkdirs st tempPrimaryPath
  let st := stMkdirs st tempDataPath
  let primaryFilename := strOr (osBasename (env.urlPath primaryFileUrl)) "primary_file"
  let baseName := (splitExt primaryFilename).1
  let primaryFilePath := osPathJoin tempPrimaryPath primaryFilename
  let st := stGet st primaryFileUrl
  let resp1 := env.httpGet primaryFileUrl
  if 400 ≤ resp1.1 then (Except.error (PyError.httpError resp1.1), st)
  else
    let st := stWrite st primaryFilePath resp1.2
    let dataExtension := strOr (splitExt (osBasename (env.urlPath dataFileUrl))).2 ".txt"
    let dataFilename := baseName ++ dataExtension
    let dataFilePath := osPathJoin tempDataPath dataFilename
    let st := stGet st dataFileUrl
    let resp2 := env.httpGet dataFileUrl
    if 400 ≤ resp2.1 then (Except.error (PyError.httpError resp2.1), st)
    else
      let dataFileContent := splitLines resp2.2
      match fsRead st primaryFilePath with
      | none => (Except.error (PyError.fileNotFound primaryFilePath), st)
      | some primaryContent =>
        let st := stDecode st "yolo"
        match env.yoloConvert classNames dataFileContent primaryContent with
        | Except.error e => (Except.error e, st)
        | Except.ok convertedData =>
          let st := cleanupTemp st primaryFilePath dataFilePath tempPath
          match convertedData with
          | Val.vdict entries =>
            match dictGet entries "dm_json" with
            | none => (Except.error (PyError.keyError "dm_json"), st)
            | some dmJson =>
              match env.dmV2NoKind dmJson with
              | Except.error e => (Except.error e, st)
              | Except.ok out => (Except.ok out, st)
          | _ => (Except.error (PyError.typeError "converted_data is not a mapping"), st)

/-- Embedding of `AnnotationToTask._convert_coco` (`to_task.py:116-171`);
same staging and (success-path-only) cleanup structure as the YOLO branch, but
the annotation body is parsed as JSON (`response.json()`, whose `ValueError`
propagates unwrapped here) and the decoder also receives the primary file's
original display name. -/
def convertCoco (env : Env)
    (primaryFileUrl primaryOriginalName dataFileUrl dataOriginalName tempPath : String)
    (st : St) : Except PyError Val × St :=
  let tempPrimaryPath := tempPath ++ "/images/"
  let tempDataPath := tempPath ++ "/labels/"
  let st := stMkdirs st tempPath
  let st := stMkdirs st tempPrimaryPath
  let st := stMkdirs st tempDataPath
  let primaryFilename := strOr (osBasename (env.urlPath primaryFileUrl)) "primary_file"
  let baseName := (splitExt primaryFilename).1
  let primaryFilePath := osPathJoin tempPrimaryPath primaryFilename
  let st := stGet st primaryFileUrl
  let resp1 := env.httpGet primaryFileUrl
  if 400 ≤ resp1.1 then (Except.error (PyError.httpError resp1.1), st)
  else
    let st := stWrite st primaryFilePath resp1.2
    let dataExtension := strOr (splitExt (osBasename (env.urlPath dataFileUrl))).2 ".txt"
    let dataFilename := baseName ++ dataExtension
    let dataFilePath := osPathJoin tempDataPath dataFilename
    let st := stGet st dataFileUrl
    let resp2 := env.httpGet dataFileUrl
    if 400 ≤ resp2.1 then (Except.error (PyError.httpError resp2.1), st)
    else
      match env.parseJson resp2.2 with
      | Except.error e => (Except.error (PyError.valueError e), st)
      | Except.ok dataFileContent =>
        match fsRead st primaryFilePath with
        | none => (Except.error (PyError.fileNotFound primaryFilePath), st)
        | some primaryContent =>
          let st := stDecode st "coco"
          match env.cocoConvert dataFileContent primaryContent primaryOriginalName with
          | Except.error e => (Except.error e, st)
          | Except.ok convertedData =>
            let st := cleanupTemp st primaryFilePath dataFilePath tempPath
            match convertedData with
            | Val.vdict entries =>
              match dictGet entries "dm_json" with
              | none => (Except.error (PyError.keyError "dm_json"), st)
              | some dmJson =>
                match env.dmV2Kind dmJson "image" with
                | Except.error e => (Except.error e, st)
                | Except.ok out => (Except.ok out, st)
            | _ => (Except.error (PyError.typeError "converted_data is not a mapping"), st)

/-- Embedding of `AnnotationToTask._convert_pascal` (`to_task.py:173-221`);
same staging and (success-path-only) cleanup structure, the annotation body
handed to the decoder as decoded text. -/
def convertPascal (env : Env) (primaryFileUrl dataFileUrl tempPath : String)
    (st : St) : Except PyError Val × St :=
  let tempPrimaryPath := tempPath ++ "/images/"
  let tempDataPath := tempPath ++ "/labels/"
  let st := stMkdirs st tempPath
  let st := stMkdirs st tempPrimaryPath
  let st := stMkdirs st tempDataPath
  let primaryFilename := strOr (osBasename (env.urlPath primaryFileUrl)) "primary_file"
  let baseName := (splitExt primaryFilename).1
  let primaryFilePath := osPathJoin tempPrimaryPath primaryFilename
  let st := stGet st primaryFileUrl
  let resp1 := env.httpGet primaryFileUrl
  if 400 ≤ resp1.1 then (Except.error (PyError.httpError resp1.1), st)
  else
    let st := stWrite st primaryFilePath resp1.2
    let dataExtension := strOr (splitExt (osBasename (env.urlPath dataFileUrl))).2 ".txt"
    let dataFilename := baseName ++ dataExtension
    let dataFilePath := osPathJoin tempDataPath dataFilename
    let st := stGet st dataFileUrl
    let resp2 := env.httpGet dataFileUrl
    if 400 ≤ resp2.1 then (Except.error (PyError.httpError resp2.1), st)
    else
      let dataFileContent := resp2.2
      match fsRead st primaryFilePath with
      | none => (Except.error (PyError.fileNotFound primaryFilePath), st)
      | some primaryContent =>
        let st := stDecode st "pascal"
        match env.pascalConvert dataFileContent primaryContent with
        | Except.error e => (Except.error e, st)
        | Except.ok convertedData =>
          let st := cleanupTemp st primaryFilePath dataFilePath tempPath
          match convertedData with
          | Val.vdict entries =>
            match dictGet entries "dm_json" with
            | none => (Except.error (PyError.keyError "dm_json"), st)
            | some dmJson =>
              match env.dmV2Kind dmJson "image" with
              | Except.error e => (Except.error e, st)
              | Except.ok out => (Except.ok out, st)
          | _ => (Except.error (PyError.typeError "converted_data is not a mapping"), st)

/-- Embedding of `AnnotationToTask._convert_dm_schema_v1` (`to_task.py:223-232`):
fetch, parse, renumber.  The `try` block catches `ValueError` — which the JSON
parse raises — and re-raises it wrapped as
`ValueError(f'Failed to parse JSON response: {str(e)}')`.  A successfully
parsed non-mapping payload makes `'extra' in data` raise `TypeError` for the
atomic payloads `Val.leaf` stands for (the `str`/`list` corner of Python's
`in`, where `Val` does not distinguish those payloads, is not modelled). -/
def convertDmSchemaV1 (env : Env) (dataFileUrl : String) (st : St) :
    Except PyError Val × St :=
  let st := stGet st dataFileUrl
  let resp := env.httpGet dataFileUrl
  if 400 ≤ resp.1 then (Except.error (PyError.httpError resp.1), st)
  else
    match env.parseJson resp.2 with
    | Except.error e =>
        (Except.error (PyError.valueError ("Failed to parse JSON response: " ++ e)), st)
    | Except.ok jsonData =>
        match jsonData with
        | Val.vdict record => (Except.ok (Val.vdict (normalizeNested record)), st)
        | _ => (Except.error (PyError.typeError "argument is not iterable"), st)

/-- Embedding of `AnnotationToTask._convert_dm_schema_v2` (`to_task.py:234-244`):
fetch, parse, normalize through the external DM v2 → v1 converter.  There is
no `try` here: a JSON parse failure propagates unwrapped. -/
def convertDmSchemaV2 (env : Env) (dataFileUrl : String) (st : St) :
    Except PyError Val × St :=
  let st := stGet st dataFileUrl
  let resp := env.httpGet dataFileUrl
  if 400 ≤ resp.1 then (Except.error (PyError.httpError resp.1), st)
  else
    match env.parseJson resp.2 with
    | Except.error e => (Except.error (PyError.valueError e), st)
    | Except.ok jsonData =>
      match env.dmV2Kind jsonData "image" with
      | Except.error e => (Except.error e, st)
      | Except.ok out => (Except.ok out, st)

/-- The host-supplied `pre_processor_params` read by the dispatcher
(`to_task.py:42` and `to_task.py:48`). -/
structure RunParams where
  schema_to_convert : String
  yolo_class_names : String

/-- Embedding of `AnnotationToTask.convert_data_from_file` (`to_task.py:23-64`):
dispatch by `schema_to_convert`; an unrecognized tag raises
`ValueError(f'Unsupported schema_to_convert: {schema_to_convert}')` before any
network or filesystem action.  `temp_path` is `f'{project_base_path}/temp/'`
(`to_task.py:44-45`). -/
def convertDataFromFile (env : Env) (pp : RunParams)
    (primaryFileUrl primaryOriginalName dataFileUrl dataOriginalName : String)
    (st : St) : Except PyError Val × St :=
  let tempPath := env.projectBase ++ "/temp/"
  if pp.schema_to_convert = "yolo" then
    convertYolo env primaryFileUrl dataFileUrl tempPath
      (deriveClassNames pp.yolo_class_names) st
  else if pp.schema_to_convert = "coco" then
    convertCoco env primaryFileUrl primaryOriginalName dataFileUrl dataOriginalName
      tempPath st
  else if pp.schema_to_convert = "pascal" then
    convertPascal env primaryFileUrl dataFileUrl tempPath st
  else if pp.schema_to_convert = "dm_schema_ver_1" then
    convertDmSchemaV1 env dataFileUrl st
  else if pp.schema_to_convert = "dm_schema_ver_2" then
    convertDmSchemaV2 env dataFileUrl st
  else
    (Except.error (PyError.valueError
      ("Unsupported schema_to_convert: " ++ pp.schema_to_convert)), st)

/-- A transport/decoder oracle for the concrete runs below: both fetches
succeed (status 200), the primary body is `IMG`, the annotation body is a
one-line YOLO row, each decoder returns a mapping whose `dm_json` value is a
distinct leaf, and the DM v2 → v1 normalizer is the identity. -/
def envOk : Env where
  urlPath := fun u => if u = "http://h/img.png" then "/img.png" else "/ann.txt"
  httpGet := fun u => if u = "http://h/img.png" then (200, "IMG") else (200, "0 0.5 0.5 0.2 0.2")
  parseJson := fun _ => Except.ok (Val.leaf 0)
  yoloConvert := fun _ _ _ => Except.ok (Val.vdict [("dm_json", Val.leaf 1)])
  cocoConvert := fun _ _ _ => Except.ok (Val.vdict [("dm_json", Val.leaf 2)])
  pascalConvert := fun _ _ => Except.ok (Val.vdict [("dm_json", Val.leaf 3)])
  dmV2NoKind := fun v => Except.ok v
  dmV2Kind := fun v _ => Except.ok v
  projectBase := "/proj"

/-- Like `envOk`, but the annotation-file fetch returns HTTP 404 while the
primary-file fetch still succeeds. -/
def env404 : Env :=
  { envOk with httpGet := fun u => if u = "http://h/img.png" then (200, "IMG") else (404, "gone") }

/-- Like `envOk`, but the response body parses as no JSON: `response.json()`
raises `ValueError('boom')`. -/
def envParseFail : Env := { envOk with parseJson := fun _ => Except.error "boom" }

/-- Host parameters selecting the YOLO branch. -/
def ppYolo : RunParams := ⟨"yolo", " cat, dog "⟩

/-- Host parameters selecting the COCO branch. -/
def ppCoco : RunParams := ⟨"coco", ""⟩

/-- Host parameters selecting the Pascal branch. -/
def ppPascal : RunParams := ⟨"pascal", ""⟩

/-- Claim C1.  The claim says every exit path of a file-based conversion
releases the staged files, in particular that a non-success HTTP status on the
annotation-file fetch (after the primary file was written) raises a staging
error and leaves no staged file behind.  The code has no `try`/`finally`: on
that path the `HTTPError` propagates before the cleanup block, and the staged
primary file remains on disk — for each of the three file-based formats the
run below ends with `httpError 404` while `<root>/temp/images/img.png` is
still present in the workspace. -/
theorem c1_cleanup_skipped_on_failed_fetch :
    ((convertDataFromFile env404 ppYolo "http://h/img.png" "img.png"
        "http://h/ann.txt" "ann.txt" st0).1 = Except.error (PyError.httpError 404) ∧
      (convertDataFromFile env404 ppYolo "http://h/img.png" "img.png"
        "http://h/ann.txt" "ann.txt" st0).2.fs = [("/proj/temp//images/img.png", "IMG")]) ∧
    ((convertDataFromFile env404 ppCoco "http://h/img.png" "img.png"
        "http://h/ann.txt" "ann.txt" st0).1 = Except.error (PyError.httpError 404) ∧
      (convertDataFromFile env404 ppCoco "http://h/img.png" "img.png"
        "http://h/ann.txt" "ann.txt" st0).2.fs = [("/proj/temp//images/img.png", "IMG")]) ∧
    ((convertDataFromFile env404 ppPascal "http://h/img.png" "img.png"
        "http://h/ann.txt" "ann.txt" st0).1 = Except.error (PyError.httpError 404) ∧
      (convertDataFromFile env404 ppPascal "http://h/img.png" "img.png"
        "http://h/ann.txt" "ann.txt" st0).2.fs = [("/proj/temp//images/img.png", "IMG")]) :=
  ⟨⟨rfl, rfl⟩, ⟨rfl, rfl⟩, ⟨rfl, rfl⟩⟩

/-- Claim C2.  The claim says staging writes the annotation artifact to
`<root>/temp/labels/<base-name>.<ext>` so that it exists on disk when the
decoder runs.  The code computes that path (`/proj/temp//labels/img.txt` in
the run below, base `img` from the primary URI, extension `.txt` from the
annotation URI) but never writes it: the full event log of a successful YOLO
conversion contains no write of the labels path, and the decoder-invocation
snapshot shows only the primary file on disk.  The conversion nevertheless
succeeds, because the fetched annotation body is handed to the decoder in
memory. -/
theorem c2_annotation_file_never_staged :
    (convertDataFromFile envOk ppYolo "http://h/img.png" "img.png"
        "http://h/ann.txt" "ann.txt" st0).1 = Except.ok (Val.leaf 1) ∧
    (convertDataFromFile envOk ppYolo "http://h/img.png" "img.png"
        "http://h/ann.txt" "ann.txt" st0).2.events =
      [Event.mkdirs "/proj/temp/", Event.mkdirs "/proj/temp//images/",
        Event.mkdirs "/proj/temp//labels/", Event.httpGet "http://h/img.png",
        Event.fileWrite "/proj/temp//images/img.png", Event.httpGet "http://h/ann.txt",
        Event.decode "yolo" ["/proj/temp//images/img.png"],
        Event.fileRemove "/proj/temp//images/img.png"] ∧
    Event.fileWrite "/proj/temp//labels/img.txt" ∉
      (convertDataFromFile envOk ppYolo "http://h/img.png" "img.png"
        "http://h/ann.txt" "ann.txt" st0).2.events :=
  ⟨rfl, rfl, by decide⟩

/-- Claim C7: dispatching any schema tag outside the five recognized values
fails with `ValueError(f'Unsupported schema_to_convert: {tag}')` and returns
the state unchanged — no HTTP request, no directory creation, no file write
happens before the raise. -/
theorem c7_unsupported_schema (env : Env) (pp : RunParams)
    (u1 n1 u2 n2 : String) (st : St)
    (h : pp.schema_to_convert ∉
      ["yolo", "coco", "pascal", "dm_schema_ver_1", "dm_schema_ver_2"]) :
    convertDataFromFile env pp u1 n1 u2 n2 st =
      (Except.error (PyError.valueError
        ("Unsupported schema_to_convert: " ++ pp.schema_to_convert)), st) := by
  simp only [List.mem_cons, List.mem_singleton, not_or] at h
  obtain ⟨h1, h2, h3, h4, h5, -⟩ := h
  simp [convertDataFromFile, h1, h2, h3, h4, h5]

/-- Witness for C7 at the spec's own example tag `bogus`, in the `envOk`
world. -/
theorem c7_unsupported_schema_witness :
    convertDataFromFile envOk ⟨"bogus", ""⟩ "http://h/img.png" "img.png"
        "http://h/ann.txt" "ann.txt" st0 =
      (Except.error (PyError.valueError
        ("Unsupported schema_to_convert: " ++ "bogus")), st0) :=
  c7_unsupported_schema envOk ⟨"bogus", ""⟩ "http://h/img.png" "img.png"
    "http://h/ann.txt" "ann.txt" st0 (by decide)

/-- Counterexample to claim C9 as stated: for `dm_schema_ver_2` a JSON parse
failure is NOT wrapped with context — the run below raises
`ValueError('boom')`, the bare parser message, which is not the wrapped form
the claim requires. -/
theorem c9_v2_unwrapped_counterexample :
    convertDmSchemaV2 envParseFail "http://h/data.json" st0 =
      (Except.error (PyError.valueError "boom"), stGet st0 "http://h/data.json") ∧
    PyError.valueError "boom" ≠
      PyError.valueError ("Failed to parse JSON response: " ++ "boom") :=
  ⟨rfl, by decide⟩

/-- Claim C9, amended: on a successful transport response whose body fails to
parse as JSON, `dm_schema_ver_1` raises a `ValueError` wrapped with context
(`'Failed to parse JSON response: ' + str(e)`), while `dm_schema_ver_2`
propagates the parse `ValueError` unwrapped; in both cases the only prior
effect is the HTTP request itself. -/
theorem c9_parse_failure_propagation (env : Env) (u : String) (st : St) (e : String)
    (hstatus : (env.httpGet u).1 < 400)
    (hparse : env.parseJson (env.httpGet u).2 = Except.error e) :
    convertDmSchemaV1 env u st =
      (Except.error (PyError.valueError ("Failed to parse JSON response: " ++ e)),
        stGet st u) ∧
    convertDmSchemaV2 env u st =
      (Except.error (PyError.valueError e), stGet st u) := by
  have hn : ¬ (400 ≤ (env.httpGet u).1) := Nat.not_le.mpr hstatus
  constructor
  · simp [convertDmSchemaV1, hn, hparse]
  · simp [convertDmSchemaV2, hn, hparse]

/-- Witness for the amended C9 in the `envParseFail` world. -/
theorem c9_parse_failure_propagation_witness :
    convertDmSchemaV1 envParseFail "http://h/data.json" st0 =
      (Except.error (PyError.valueError ("Failed to parse JSON response: " ++ "boom")),
        stGet st0 "http://h/data.json") ∧
    convertDmSchemaV2 envParseFail "http://h/data.json" st0 =
      (Except.error (PyError.valueError "boom"), stGet st0 "http://h/data.json") :=
  c9_parse_failure_propagation envParseFail "http://h/data.json" st0 "boom"
    (by decide) rfl

/-- Counterexample to claim C8 as stated: the dispatcher removes EVERY space
before splitting, so whitespace interior to a label is not preserved — for
`"big cat, dog"` the code derives `["bigcat", "dog"]`, not the
`["big cat", "dog"]` that per-entry trimming would give. -/
theorem c8_interior_space_counterexample :
    deriveClassNames "big cat, dog" = ["bigcat", "dog"] ∧
    specTrimSplit "big cat, dog" = ["big cat", "dog"] ∧
    deriveClassNames "big cat, dog" ≠ specTrimSplit "big cat, dog" :=
  ⟨rfl, rfl, by decide⟩

/-- The base keys of a section in first-appearance order: the iteration order
of the per-base bucket mapping built by the grouping pass. -/
def firstSeen : List String → List String
  | [] => []
  | b :: rest => b :: (firstSeen rest).filter (fun x => x ≠ b)

/-- The distinct base keys of a section, in first-appearance order. -/
def keyBases (l : List (String × Val)) : List String :=
  firstSeen (l.map (fun p => baseKey p.1))

/-- The bucket of base `b`: the section's entries whose key has base `b`, in
original order. -/
def groupOf (l : List (String × Val)) (b : String) : List (String × Val) :=
  l.filter (fun p => baseKey p.1 = b)

theorem firstSeen_nodup (xs : List String) : (firstSeen xs).Nodup := by
  induction xs with
  | nil => simp [firstSeen]
  | cons b rest ih =>
    rw [firstSeen, List.nodup_cons]
    refine ⟨?_, ih.filter _⟩
    intro hmem
    have h2 := (List.mem_filter.mp hmem).2
    simp at h2

theorem mem_firstSeen {b : String} : ∀ {xs : List String}, b ∈ firstSeen xs ↔ b ∈ xs := by
  intro xs
  induction xs with
  | nil => simp [firstSeen]
  | cons c rest ih =>
    rw [firstSeen]
    by_cases hbc : b = c
    · subst hbc; simp
    · simp [hbc, List.mem_filter, ih]

theorem firstSeen_concat (xs : List String) (x : String) :
    firstSeen (xs ++ [x]) =
      if x ∈ xs then firstSeen xs else firstSeen xs ++ [x] := by
  induction xs with
  | nil => simp [firstSeen]
  | cons y ys ih =>
    rw [List.cons_append, firstSeen, ih, firstSeen]
    by_cases hxy : x = y
    · subst hxy
      by_cases hx : x ∈ ys
      · simp [hx]
      · rw [if_neg hx, if_pos (by simp), List.filter_append]
        simp
    · by_cases hx : x ∈ ys
      · rw [if_pos hx, if_pos (by simp [hx])]
      · rw [if_neg hx, if_neg (by simp [hxy, hx]), List.filter_append]
        simp [hxy]

theorem addToGroup_of_notMem {gs : List (String × List (String × Val))} {b : String}
    (p : String × Val) (h : b ∉ gs.map Prod.fst) :
    addToGroup gs b p = gs ++ [(b, [p])] := by
  induction gs with
  | nil => rfl
  | cons g rest ih =>
    obtain ⟨b', ps⟩ := g
    simp only [List.map_cons, List.mem_cons] at h
    push_neg at h
    rw [addToGroup, if_neg (fun e => h.1 e.symm), ih h.2, List.cons_append]

theorem addToGroup_of_split (gs1 gs2 : List (String × List (String × Val)))
    (b : String) (ps : List (String × Val)) (p : String × Val)
    (h : b ∉ gs1.map Prod.fst) :
    addToGroup (gs1 ++ (b, ps) :: gs2) b p = gs1 ++ (b, ps ++ [p]) :: gs2 := by
  induction gs1 with
  | nil => simp [addToGroup]
  | cons g rest ih =>
    obtain ⟨b', ps'⟩ := g
    simp only [List.map_cons, List.mem_cons] at h
    push_neg at h
    rw [List.cons_append, addToGroup, if_neg (fun e => h.1 e.symm), ih h.2,
      List.cons_append]

theorem groupOf_append (l1 l2 : List (String × Val)) (b : String) :
    groupOf (l1 ++ l2) b = groupOf l1 b ++ groupOf l2 b := List.filter_append _ _

theorem groupOf_singleton (p : String × Val) (b : String) :
    groupOf [p] b = if baseKey p.1 = b then [p] else [] := by
  by_cases h : baseKey p.1 = b <;> simp [groupOf, h]

theorem groupOf_concat (l : List (String × Val)) (p : String × Val) (b : String) :
    groupOf (l ++ [p]) b = groupOf l b ++ if baseKey p.1 = b then [p] else [] := by
  rw [groupOf_append, groupOf_singleton]

theorem mem_keyBases {l : List (String × Val)} {b : String} :
    b ∈ keyBases l ↔ ∃ p ∈ l, baseKey p.1 = b := by
  rw [keyBases, mem_firstSeen]
  simp [List.mem_map]

theorem keyBases_concat (l : List (String × Val)) (p : String × Val) :
    keyBases (l ++ [p]) =
      if baseKey p.1 ∈ keyBases l then keyBases l else keyBases l ++ [baseKey p.1] := by
  have hm : baseKey p.1 ∈ keyBases l ↔ baseKey p.1 ∈ l.map (fun q => baseKey q.1) := by
    rw [keyBases, mem_firstSeen]
  rw [keyBases, List.map_append, List.map_singleton, firstSeen_concat]
  by_cases h : baseKey p.1 ∈ l.map (fun q => baseKey q.1)
  · rw [if_pos h, if_pos (hm.mpr h), keyBases]
  · rw [if_neg h, if_neg (fun hc => h (hm.mp hc)), keyBases]

theorem map_fst_groups (bs : List String) (l : List (String × Val)) :
    ((bs.map (fun b => (b, groupOf l b))).map Prod.fst) = bs := by
  induction bs with
  | nil => rfl
  | cons b rest ih => simp only [List.map_cons, ih]

theorem baseKeyGroups_concat (l : List (String × Val)) (p : String × Val) :
    baseKeyGroups (l ++ [p]) = addToGroup (baseKeyGroups l) (baseKey p.1) p := by
  rw [baseKeyGroups, baseKeyGroups, List.foldl_append]
  rfl

theorem baseKeyGroups_eq (l : List (String × Val)) :
    baseKeyGroups l = (keyBases l).map (fun b => (b, groupOf l b)) := by
  induction l using List.reverseRecOn with
  | nil => rfl
  | append_singleton l p ih =>
    rw [baseKeyGroups_concat, ih, keyBases_concat]
    by_cases h : baseKey p.1 ∈ keyBases l
    · rw [if_pos h]
      obtain ⟨u, v, huv⟩ := List.append_of_mem h
      have hnd : (keyBases l).Nodup := firstSeen_nodup _
      rw [huv] at hnd
      have hu : baseKey p.1 ∉ u :=
        fun hc => (List.nodup_append.mp hnd).2.2 hc (List.mem_cons_self _ _)
      have hv : baseKey p.1 ∉ v :=
        (List.nodup_cons.mp (List.nodup_append.mp hnd).2.1).1
      rw [huv, List.map_append, List.map_cons,
        addToGroup_of_split _ _ _ _ _ (by rw [map_fst_groups]; exact hu),
        List.map_append, List.map_cons]
      congr 1
      · exact List.map_congr_left (fun b hb => by
          rw [groupOf_concat, if_neg (fun e => hu (by rw [e]; exact hb)), List.append_nil])
      · congr 1
        · rw [groupOf_concat, if_pos rfl]
        · exact List.map_congr_left (fun b hb => by
            rw [groupOf_concat, if_neg (fun e => hv (by rw [e]; exact hb)), List.append_nil])
    · rw [if_neg h]
      have hgroup : groupOf l (baseKey p.1) = [] := by
        rw [groupOf, List.filter_eq_nil_iff]
        intro q hq e
        simp only [decide_eq_true_eq] at e
        exact h (mem_keyBases.mpr ⟨q, hq, e⟩)
      rw [addToGroup_of_notMem _ (by rw [map_fst_groups]; exact h),
        List.map_append, List.map_singleton]
      congr 1
      · exact List.map_congr_left (fun b hb => by
          rw [groupOf_concat, if_neg (fun e => h (by rw [e]; exact hb)), List.append_nil])
      · rw [groupOf_concat, if_pos rfl, hgroup, List.nil_append]

theorem renumberSection_eq (l : List (String × Val)) :
    renumberSection l = (keyBases l).flatMap (fun b => numberGroup b 1 (groupOf l b)) := by
  rw [renumberSection, baseKeyGroups_eq, List.flatMap_map]

theorem toDigitsCore_eq_digits :
    ∀ (n : Nat), ∀ (fuel : Nat) (ds : List Char), n < fuel → 1 ≤ n →
      Nat.toDigitsCore 10 fuel n ds = ((Nat.digits 10 n).map Nat.digitChar).reverse ++ ds := by
  intro n
  induction n using Nat.strong_induction_on with
  | _ n ih =>
    intro fuel ds hfuel hn
    match fuel with
    | 0 => omega
    | fuel + 1 =>
      rw [Nat.toDigitsCore]
      by_cases h10 : n / 10 = 0
      · rw [if_pos h10, Nat.digits_def' (by norm_num : 1 < 10) (by omega : 0 < n), h10,
          Nat.digits_zero]
        simp
      · rw [if_neg h10]
        have h1 : 1 ≤ n / 10 := Nat.pos_of_ne_zero h10
        have hlt : n / 10 < n := Nat.div_lt_self (by omega) (by norm_num)
        rw [ih (n / 10) hlt fuel _ (by omega) h1,
          Nat.digits_def' (by norm_num : 1 < 10) (by omega : 0 < n)]
        simp

theorem repr_data_eq {n : Nat} (h : 1 ≤ n) :
    (Nat.repr n).data = ((Nat.digits 10 n).map Nat.digitChar).reverse := by
  have h1 : (Nat.repr n).data = Nat.toDigitsCore 10 (n + 1) n [] := rfl
  rw [h1, toDigitsCore_eq_digits n (n + 1) [] (Nat.lt_succ_self n) h, List.append_nil]

theorem digitChar_isDigit {d : Nat} (h : d < 10) : isDigitCh (Nat.digitChar d) = true := by
  interval_cases d <;> rfl

theorem digitChar_injOn {d e : Nat} (hd : d < 10) (he : e < 10)
    (h : Nat.digitChar d = Nat.digitChar e) : d = e := by
  interval_cases d <;> interval_cases e <;> revert h <;> decide

theorem map_digitChar_injOn :
    ∀ {l1 l2 : List Nat}, (∀ d ∈ l1, d < 10) → (∀ d ∈ l2, d < 10) →
      l1.map Nat.digitChar = l2.map Nat.digitChar → l1 = l2 := by
  intro l1
  induction l1 with
  | nil =>
    intro l2 _ _ h
    cases l2 with
    | nil => rfl
    | cons e t2 => simp at h
  | cons d t ih =>
    intro l2 h1 h2 h
    cases l2 with
    | nil => simp at h
    | cons e t2 =>
      simp only [List.map_cons, List.cons.injEq] at h
      have hde := digitChar_injOn (h1 d (List.mem_cons_self _ _))
        (h2 e (List.mem_cons_self _ _)) h.1
      rw [hde, ih (fun x hx => h1 x (List.mem_cons_of_mem _ hx))
        (fun x hx => h2 x (List.mem_cons_of_mem _ hx)) h.2]

theorem repr_injOn {m n : Nat} (hm : 1 ≤ m) (hn : 1 ≤ n)
    (h : (Nat.repr m).data = (Nat.repr n).data) : m = n := by
  rw [repr_data_eq hm, repr_data_eq hn] at h
  have h2 := List.reverse_injective h
  have h3 := map_digitChar_injOn
    (fun d hd' => Nat.digits_lt_base (by norm_num) hd')
    (fun d hd' => Nat.digits_lt_base (by norm_num) hd') h2
  have h4 := congrArg (Nat.ofDigits 10) h3
  rwa [Nat.ofDigits_digits, Nat.ofDigits_digits] at h4

theorem repr_all_digit {n : Nat} (h : 1 ≤ n) :
    ∀ c ∈ (Nat.repr n).data, isDigitCh c = true := by
  rw [repr_data_eq h]
  intro c hc
  rw [List.mem_reverse] at hc
  obtain ⟨d, hd, rfl⟩ := List.mem_map.mp hc
  exact digitChar_isDigit (Nat.digits_lt_base (by norm_num) hd)

theorem repr_ne_nil {n : Nat} (h : 1 ≤ n) : (Nat.repr n).data ≠ [] := by
  rw [repr_data_eq h]
  intro hc
  rw [List.reverse_eq_nil_iff, List.map_eq_nil_iff] at hc
  exact Nat.digits_ne_nil_iff_ne_zero.mpr (by omega) hc

theorem takeWhile_app_all {α : Type} {p : α → Bool} :
    ∀ (xs : List α) (y : α) (ys : List α), (∀ x ∈ xs, p x = true) → p y = false →
      (xs ++ y :: ys).takeWhile p = xs := by
  intro xs y ys hall hy
  induction xs with
  | nil => simp [List.takeWhile_cons, hy]
  | cons x t ih =>
    rw [List.cons_append, List.takeWhile_cons, hall x (List.mem_cons_self _ _)]
    rw [if_pos rfl, ih (fun z hz => hall z (List.mem_cons_of_mem _ hz))]

theorem dropWhile_app_all {α : Type} {p : α → Bool} :
    ∀ (xs : List α) (y : α) (ys : List α), (∀ x ∈ xs, p x = true) → p y = false →
      (xs ++ y :: ys).dropWhile p = y :: ys := by
  intro xs y ys hall hy
  induction xs with
  | nil => simp [List.dropWhile_cons, hy]
  | cons x t ih =>
    rw [List.cons_append, List.dropWhile_cons, hall x (List.mem_cons_self _ _)]
    rw [if_pos rfl, ih (fun z hz => hall z (List.mem_cons_of_mem _ hz))]

theorem newKey_data (b : String) (i : Nat) :
    (newKey b i).data = b.data ++ '_' :: (Nat.repr i).data := by
  rw [newKey, String.data_append, String.data_append, List.append_assoc]
  rfl

theorem baseKey_newKey (b : String) {i : Nat} (hi : 1 ≤ i) : baseKey (newKey b i) = b := by
  have hd : (newKey b i).data.reverse =
      (Nat.repr i).data.reverse ++ '_' :: b.data.reverse := by
    rw [newKey_data, List.reverse_append, List.reverse_cons, List.append_assoc]
    rfl
  have hall : ∀ c ∈ (Nat.repr i).data.reverse, isDigitCh c = true :=
    fun c hc => repr_all_digit hi c (List.mem_reverse.mp hc)
  have hu : isDigitCh '_' = false := rfl
  have htake : (newKey b i).data.reverse.takeWhile isDigitCh = (Nat.repr i).data.reverse := by
    rw [hd]; exact takeWhile_app_all _ _ _ hall hu
  have hdrop : (newKey b i).data.reverse.dropWhile isDigitCh = '_' :: b.data.reverse := by
    rw [hd]; exact dropWhile_app_all _ _ _ hall hu
  have hne : ((Nat.repr i).data.reverse).isEmpty = false := by
    cases hc : (Nat.repr i).data.reverse with
    | nil => exact absurd (by rwa [List.reverse_eq_nil_iff] at hc) (repr_ne_nil hi)
    | cons a t => rfl
  simp only [baseKey, htake, hdrop, hne, Bool.false_eq_true, if_false]
  simp

theorem newKey_injOn {b1 b2 : String} {i1 i2 : Nat} (h1 : 1 ≤ i1) (h2 : 1 ≤ i2)
    (h : newKey b1 i1 = newKey b2 i2) : b1 = b2 ∧ i1 = i2 := by
  have hb : b1 = b2 := by
    have hc := congrArg baseKey h
    rwa [baseKey_newKey b1 h1, baseKey_newKey b2 h2] at hc
  subst hb
  refine ⟨rfl, ?_⟩
  have hd := congrArg String.data h
  rw [newKey_data, newKey_data] at hd
  have hc : '_' :: (Nat.repr i1).data = '_' :: (Nat.repr i2).data :=
    List.append_cancel_left hd
  exact repr_injOn h1 h2 (List.cons.inj hc).2

theorem numberGroup_length (b : String) :
    ∀ (i : Nat) (g : List (String × Val)), (numberGroup b i g).length = g.length := by
  intro i g
  induction g generalizing i with
  | nil => rfl
  | cons p ps ih => simp [numberGroup, ih]

theorem numberGroup_keys (b : String) :
    ∀ (i : Nat) (g : List (String × Val)),
      (numberGroup b i g).map Prod.fst = (List.range' i g.length).map (newKey b) := by
  intro i g
  induction g generalizing i with
  | nil => rfl
  | cons p ps ih =>
    rw [numberGroup, List.map_cons, ih (i + 1), List.length_cons, List.range'_succ,
      List.map_cons]

theorem numberGroup_vals (b : String) :
    ∀ (i : Nat) (g : List (String × Val)),
      (numberGroup b i g).map Prod.snd = g.map Prod.snd := by
  intro i g
  induction g generalizing i with
  | nil => rfl
  | cons p ps ih => simp [numberGroup, ih]

theorem numberGroup_idem (b : String) :
    ∀ (i : Nat) (g : List (String × Val)),
      numberGroup b i (numberGroup b i g) = numberGroup b i g := by
  intro i g
  induction g generalizing i with
  | nil => rfl
  | cons p ps ih =>
    simp only [numberGroup]
    rw [ih (i + 1)]

theorem numberGroup_ne_nil {b : String} {i : Nat} {g : List (String × Val)} (h : g ≠ []) :
    numberGroup b i g ≠ [] := by
  cases g with
  | nil => exact absurd rfl h
  | cons p ps => simp [numberGroup]

theorem mem_numberGroup_base {b : String} :
    ∀ {g : List (String × Val)} {i : Nat} {q : String × Val}, 1 ≤ i →
      q ∈ numberGroup b i g → baseKey q.1 = b := by
  intro g
  induction g with
  | nil => intro i q _ hq; simp [numberGroup] at hq
  | cons p ps ih =>
    intro i q hi hq
    rw [numberGroup, List.mem_cons] at hq
    rcases hq with h | h
    · rw [h]; exact baseKey_newKey b hi
    · exact ih (by omega) h

theorem map_eq_replicate {α β : Type} {f : α → β} {c : β} :
    ∀ {xs : List α}, (∀ x ∈ xs, f x = c) → xs.map f = List.replicate xs.length c := by
  intro xs
  induction xs with
  | nil => intro _; rfl
  | cons x t ih =>
    intro h
    rw [List.map_cons, h x (List.mem_cons_self _ _), List.length_cons, List.replicate_succ,
      ih (fun z hz => h z (List.mem_cons_of_mem _ hz))]

theorem filter_ne_of_notMem {c : String} {xs : List String} (h : c ∉ xs) :
    xs.filter (fun x => x ≠ c) = xs := by
  rw [List.filter_eq_self]
  intro a ha
  simp only [ne_eq, decide_eq_true_eq]
  exact fun e => h (e ▸ ha)

theorem firstSeen_replicate_append (c : String) (rest : List String) :
    ∀ n : Nat, 1 ≤ n →
      firstSeen (List.replicate n c ++ rest) =
        c :: (firstSeen rest).filter (fun x => x ≠ c) := by
  intro n
  induction n with
  | zero => omega
  | succ m ih =>
    intro _
    by_cases hm : 1 ≤ m
    · rw [List.replicate_succ, List.cons_append, firstSeen, ih hm]
      congr 1
      rw [List.filter_cons]
      simp [List.filter_filter]
    · have hm0 : m = 0 := by omega
      subst hm0
      rw [List.replicate_succ, List.replicate_zero, List.cons_append, List.nil_append,
        firstSeen]

theorem keyBases_flatMap (bs : List String) (f : String → List (String × Val))
    (hnd : bs.Nodup) (hne : ∀ b ∈ bs, f b ≠ [])
    (hbase : ∀ b ∈ bs, ∀ q ∈ f b, baseKey q.1 = b) :
    keyBases (bs.flatMap f) = bs := by
  induction bs with
  | nil => rfl
  | cons b rest ih =>
    rw [List.flatMap_cons, keyBases, List.map_append]
    have hmap : (f b).map (fun p => baseKey p.1) = List.replicate (f b).length b :=
      map_eq_replicate (fun q hq => hbase b (List.mem_cons_self _ _) q hq)
    have hlen : 1 ≤ (f b).length := by
      have hb := hne b (List.mem_cons_self _ _)
      cases hc : f b with
      | nil => exact absurd hc hb
      | cons q qs => simp [hc]
    rw [hmap, firstSeen_replicate_append b _ _ hlen]
    have ihh : keyBases (rest.flatMap f) = rest := ih (List.nodup_cons.mp hnd).2
      (fun x hx => hne x (List.mem_cons_of_mem _ hx))
      (fun x hx => hbase x (List.mem_cons_of_mem _ hx))
    rw [keyBases] at ihh
    rw [ihh, filter_ne_of_notMem (List.nodup_cons.mp hnd).1]

theorem groupOf_flatMap_notMem (bs : List String) (f : String → List (String × Val))
    (hbase : ∀ b ∈ bs, ∀ q ∈ f b, baseKey q.1 = b) {b : String} (hb : b ∉ bs) :
    groupOf (bs.flatMap f) b = [] := by
  induction bs with
  | nil => rfl
  | cons b' rest ih =>
    rw [List.flatMap_cons, groupOf_append]
    have h1 : groupOf (f b') b = [] := by
      rw [groupOf, List.filter_eq_nil_iff]
      intro q hq e
      simp only [decide_eq_true_eq] at e
      have hbb : b = b' := by rw [← e, hbase b' (List.mem_cons_self _ _) q hq]
      exact hb (by rw [hbb]; exact List.mem_cons_self _ _)
    rw [h1, List.nil_append]
    exact ih (fun x hx => hbase x (List.mem_cons_of_mem _ hx))
      (fun hc => hb (List.mem_cons_of_mem _ hc))

theorem groupOf_flatMap_mem (bs : List String) (f : String → List (String × Val))
    (hnd : bs.Nodup) (hbase : ∀ b ∈ bs, ∀ q ∈ f b, baseKey q.1 = b) :
    ∀ {b : String}, b ∈ bs → groupOf (bs.flatMap f) b = f b := by
  induction bs with
  | nil => intro b hb; simp at hb
  | cons b' rest ih =>
    intro b hb
    rw [List.flatMap_cons, groupOf_append]
    rcases List.mem_cons.mp hb with h | h
    · subst h
      have h1 : groupOf (f b) b = f b := by
        rw [groupOf, List.filter_eq_self]
        intro q hq
        simp only [decide_eq_true_eq]
        exact hbase b (List.mem_cons_self _ _) q hq
      have h2 : groupOf (rest.flatMap f) b = [] :=
        groupOf_flatMap_notMem rest f
          (fun x hx => hbase x (List.mem_cons_of_mem _ hx))
          (List.nodup_cons.mp hnd).1
      rw [h1, h2, List.append_nil]
    · have hbb : b ≠ b' := fun e => (List.nodup_cons.mp hnd).1 (e ▸ h)
      have h1 : groupOf (f b') b = [] := by
        rw [groupOf, List.filter_eq_nil_iff]
        intro q hq e
        simp only [decide_eq_true_eq] at e
        exact hbb (by rw [← e, hbase b' (List.mem_cons_self _ _) q hq])
      rw [h1, List.nil_append]
      exact ih (List.nodup_cons.mp hnd).2
        (fun x hx => hbase x (List.mem_cons_of_mem _ hx)) h

theorem groupOf_ne_nil {l : List (String × Val)} {b : String} (h : b ∈ keyBases l) :
    groupOf l b ≠ [] := by
  obtain ⟨p, hp, hb⟩ := mem_keyBases.mp h
  intro hnil
  have hmem : p ∈ groupOf l b := by
    rw [groupOf, List.mem_filter]
    exact ⟨hp, by simp [hb]⟩
  rw [hnil] at hmem
  simp at hmem

theorem renumberSection_idem (l : List (String × Val)) :
    renumberSection (renumberSection l) = renumberSection l := by
  have hnd : (keyBases l).Nodup := firstSeen_nodup _
  have hbase : ∀ b ∈ keyBases l, ∀ q ∈ numberGroup b 1 (groupOf l b), baseKey q.1 = b :=
    fun b _ q hq => mem_numberGroup_base (le_refl 1) hq
  have hne : ∀ b ∈ keyBases l, numberGroup b 1 (groupOf l b) ≠ [] :=
    fun b hb => numberGroup_ne_nil (groupOf_ne_nil hb)
  rw [renumberSection_eq l, renumberSection_eq, keyBases_flatMap _ _ hnd hne hbase]
  refine List.flatMap_congr (fun b hb => ?_)
  rw [groupOf_flatMap_mem _ _ hnd hbase hb, numberGroup_idem]

theorem groupOf_cons (p : String × Val) (t : List (String × Val)) (b : String) :
    groupOf (p :: t) b = if baseKey p.1 = b then p :: groupOf t b else groupOf t b := by
  by_cases h : baseKey p.1 = b <;> simp [groupOf, List.filter_cons, h]

theorem sum_ite_zero (x : String) :
    ∀ bs : List String, x ∉ bs →
      (bs.map (fun b => if x = b then 1 else 0)).sum = 0 := by
  intro bs
  induction bs with
  | nil => intro _; rfl
  | cons b rest ih =>
    intro h
    rw [List.map_cons, List.sum_cons, if_neg (fun e => h (by rw [e]; exact List.mem_cons_self _ _)),
      ih (fun hc => h (List.mem_cons_of_mem _ hc))]

theorem sum_ite_one (x : String) :
    ∀ bs : List String, bs.Nodup → x ∈ bs →
      (bs.map (fun b => if x = b then 1 else 0)).sum = 1 := by
  intro bs
  induction bs with
  | nil => intro _ h; simp at h
  | cons b rest ih =>
    intro hnd h
    rw [List.map_cons, List.sum_cons]
    rcases List.mem_cons.mp h with he | he
    · rw [if_pos he, sum_ite_zero x rest (by rw [he]; exact (List.nodup_cons.mp hnd).1)]
    · have hne : x ≠ b := fun e => (List.nodup_cons.mp hnd).1 (e ▸ he)
      rw [if_neg hne, ih (List.nodup_cons.mp hnd).2 he]

theorem sum_groupOf_lengths :
    ∀ (l : List (String × Val)) (bs : List String), bs.Nodup →
      (∀ p ∈ l, baseKey p.1 ∈ bs) →
      (bs.map (fun b => (groupOf l b).length)).sum = l.length := by
  intro l
  induction l with
  | nil =>
    intro bs _ _
    have h0 : ∀ bs' : List String, (bs'.map (fun _ : String => (0 : Nat))).sum = 0 := by
      intro bs'
      induction bs' with
      | nil => rfl
      | cons b rest ih => simp only [List.map_cons, List.sum_cons, Nat.zero_add, ih]
    have h1 : bs.map (fun b => (groupOf ([] : List (String × Val)) b).length)
        = bs.map (fun _ => 0) := List.map_congr_left (fun b _ => rfl)
    rw [h1, h0]
    rfl
  | cons p t ih =>
    intro bs hnd hall
    have hstep : ∀ b, (groupOf (p :: t) b).length
        = (groupOf t b).length + (if baseKey p.1 = b then 1 else 0) := by
      intro b
      rw [groupOf_cons]
      by_cases h : baseKey p.1 = b <;> simp [h]
    have h1 : bs.map (fun b => (groupOf (p :: t) b).length)
        = bs.map (fun b => (groupOf t b).length + if baseKey p.1 = b then 1 else 0) :=
      List.map_congr_left (fun b _ => hstep b)
    rw [h1, List.sum_map_add, ih bs hnd (fun q hq => hall q (List.mem_cons_of_mem _ hq)),
      sum_ite_one (baseKey p.1) bs hnd (hall p (List.mem_cons_self _ _)), List.length_cons]

theorem renumberSection_length (l : List (String × Val)) :
    (renumberSection l).length = l.length := by
  rw [renumberSection_eq, List.length_flatMap]
  have h1 : (keyBases l).map (fun b => (numberGroup b 1 (groupOf l b)).length)
      = (keyBases l).map (fun b => (groupOf l b).length) :=
    List.map_congr_left (fun b _ => numberGroup_length b 1 _)
  have h2 : (keyBases l).map (List.length ∘ fun b => numberGroup b 1 (groupOf l b))
      = (keyBases l).map (fun b => (numberGroup b 1 (groupOf l b)).length) := rfl
  rw [h2, h1]
  exact sum_groupOf_lengths l (keyBases l) (firstSeen_nodup _)
    (fun p hp => mem_keyBases.mpr ⟨p, hp, rfl⟩)

theorem nodup_newKey_flatMap (bs : List String) (n : String → Nat) (hnd : bs.Nodup) :
    (bs.flatMap (fun b => (List.range' 1 (n b)).map (newKey b))).Nodup := by
  induction bs with
  | nil => exact List.nodup_nil
  | cons b rest ih =>
    rw [List.flatMap_cons, List.nodup_append]
    refine ⟨?_, ih (List.nodup_cons.mp hnd).2, ?_⟩
    · refine List.Nodup.map_on ?_ (List.nodup_range' 1 (n b))
      intro x hx y hy hxy
      exact (newKey_injOn (List.mem_range'_1.mp hx).1 (List.mem_range'_1.mp hy).1 hxy).2
    · intro k hk1 hk2
      obtain ⟨i, hi, rfl⟩ := List.mem_map.mp hk1
      obtain ⟨b', hb', hk'⟩ := List.mem_flatMap.mp hk2
      obtain ⟨j, hj, he⟩ := List.mem_map.mp hk'
      have := (newKey_injOn (List.mem_range'_1.mp hj).1 (List.mem_range'_1.mp hi).1 he).1
      rw [this] at hb'
      exact (List.nodup_cons.mp hnd).1 hb'

theorem renumberSection_keys (l : List (String × Val)) :
    (renumberSection l).map Prod.fst =
      (keyBases l).flatMap (fun b => (List.range' 1 (groupOf l b).length).map (newKey b)) := by
  rw [renumberSection_eq, List.map_flatMap]
  exact List.flatMap_congr (fun b _ => numberGroup_keys b 1 _)

theorem renumberSection_keys_nodup (l : List (String × Val)) :
    ((renumberSection l).map Prod.fst).Nodup := by
  rw [renumberSection_keys]
  exact nodup_newKey_flatMap (keyBases l) (fun b => (groupOf l b).length) (firstSeen_nodup _)

theorem filter_base_flatMap (b : String) :
    ∀ (bs : List String) (n : String → Nat), bs.Nodup →
      ((bs.flatMap (fun b' => (List.range' 1 (n b')).map (newKey b'))).filter
          (fun k => baseKey k = b)) =
        if b ∈ bs then (List.range' 1 (n b)).map (newKey b) else [] := by
  intro bs
  induction bs with
  | nil => intro n _; simp
  | cons b' rest ih =>
    intro n hnd
    rw [List.flatMap_cons, List.filter_append, ih n (List.nodup_cons.mp hnd).2]
    by_cases hbb : b' = b
    · subst hbb
      have h1 : ((List.range' 1 (n b')).map (newKey b')).filter (fun k => baseKey k = b')
          = (List.range' 1 (n b')).map (newKey b') := by
        rw [List.filter_eq_self]
        intro k hk
        obtain ⟨i, hi, rfl⟩ := List.mem_map.mp hk
        simp only [decide_eq_true_eq]
        exact baseKey_newKey b' (List.mem_range'_1.mp hi).1
      rw [h1, if_neg (List.nodup_cons.mp hnd).1, if_pos (List.mem_cons_self _ _),
        List.append_nil]
    · have h1 : ((List.range' 1 (n b')).map (newKey b')).filter (fun k => baseKey k = b)
          = [] := by
        rw [List.filter_eq_nil_iff]
        intro k hk e
        obtain ⟨i, hi, rfl⟩ := List.mem_map.mp hk
        simp only [decide_eq_true_eq] at e
        exact hbb (by rw [← baseKey_newKey b' (List.mem_range'_1.mp hi).1, e])
      rw [h1, List.nil_append]
      by_cases hmem : b ∈ rest
      · rw [if_pos hmem, if_pos (List.mem_cons_of_mem _ hmem)]
      · rw [if_neg hmem, if_neg (by
          intro hc
          rcases List.mem_cons.mp hc with he | he
          · exact hbb he.symm
          · exact hmem he)]

theorem renumber_filter_base (l : List (String × Val)) (b : String) :
    ((renumberSection l).map Prod.fst).filter (fun k => baseKey k = b) =
      (List.range' 1 (l.countP (fun p => baseKey p.1 = b))).map (newKey b) := by
  rw [renumberSection_keys,
    filter_base_flatMap b (keyBases l) (fun b' => (groupOf l b').length) (firstSeen_nodup _)]
  have hcount : l.countP (fun p => baseKey p.1 = b) = (groupOf l b).length := by
    rw [groupOf, List.countP_eq_length_filter]
  by_cases h : b ∈ keyBases l
  · rw [if_pos h, hcount]
  · rw [if_neg h]
    have h0 : l.countP (fun p => baseKey p.1 = b) = 0 := by
      rw [List.countP_eq_zero]
      intro p hp
      simp only [decide_eq_true_eq]
      exact fun e => h (mem_keyBases.mpr ⟨p, hp, e⟩)
    rw [h0]
    rfl

theorem numberGroup_mem_val (b : String) :
    ∀ (g : List (String × Val)) (i : Nat) (p : String × Val), p ∈ g →
      ∃ j, (newKey b j, p.2) ∈ numberGroup b i g := by
  intro g
  induction g with
  | nil => intro i p hp; simp at hp
  | cons q qs ih =>
    intro i p hp
    rcases List.mem_cons.mp hp with h | h
    · exact ⟨i, by rw [numberGroup, h]; exact List.mem_cons_self _ _⟩
    · obtain ⟨j, hj⟩ := ih (i + 1) p h
      exact ⟨j, by rw [numberGroup]; exact List.mem_cons_of_mem _ hj⟩

theorem renumber_value_present (l : List (String × Val)) :
    ∀ p ∈ l, ∃ k, (k, p.2) ∈ renumberSection l := by
  intro p hp
  have hb : baseKey p.1 ∈ keyBases l := mem_keyBases.mpr ⟨p, hp, rfl⟩
  have hpg : p ∈ groupOf l (baseKey p.1) := by
    rw [groupOf, List.mem_filter]
    exact ⟨hp, by simp⟩
  obtain ⟨j, hj⟩ := numberGroup_mem_val (baseKey p.1) (groupOf l (baseKey p.1)) 1 p hpg
  refine ⟨newKey (baseKey p.1) j, ?_⟩
  rw [renumberSection_eq]
  exact List.mem_flatMap.mpr ⟨baseKey p.1, hb, hj⟩

theorem renumber_vals_of_grouped {l : List (String × Val)}
    (h : (keyBases l).flatMap (fun b => groupOf l b) = l) :
    (renumberSection l).map Prod.snd = l.map Prod.snd := by
  rw [renumberSection_eq, List.map_flatMap]
  calc (keyBases l).flatMap (fun b => (numberGroup b 1 (groupOf l b)).map Prod.snd)
      = (keyBases l).flatMap (fun b => (groupOf l b).map Prod.snd) :=
        List.flatMap_congr (fun b _ => numberGroup_vals b 1 _)
    _ = ((keyBases l).flatMap (fun b => groupOf l b)).map Prod.snd :=
        (List.map_flatMap _ _ _).symm
    _ = l.map Prod.snd := by rw [h]

theorem normalizeNested_idem (record : List (String × Val)) :
    normalizeNested (normalizeNested record) = normalizeNested record := by
  rw [normalizeNested, normalizeNested, List.map_map]
  refine List.map_congr_left (fun p _ => ?_)
  by_cases h : p.1 ∈ targetKeys
  · cases hv : p.2 with
    | vdict l => simp [Function.comp, h, hv, renumberSection_idem]
    | leaf m => simp [Function.comp, h, hv]
  · simp [Function.comp, h]

theorem splitOnChar_ne_nil (sep : Char) : ∀ cs : List Char, splitOnChar sep cs ≠ [] := by
  intro cs
  induction cs with
  | nil => simp [splitOnChar]
  | cons c rest ih =>
    rw [splitOnChar]
    by_cases h : c = sep
    · simp [h]
    · rw [if_neg h]
      cases hs : splitOnChar sep rest with
      | nil => simp
      | cons g gs => simp

theorem splitOnChar_cons_eq (sep : Char) (rest : List Char) :
    splitOnChar sep (sep :: rest) = [] :: splitOnChar sep rest := by
  rw [splitOnChar, if_pos rfl]

theorem splitOnChar_cons_ne (sep c : Char) (rest : List Char) (h : ¬ c = sep)
    {g : List Char} {gs : List (List Char)} (hs : splitOnChar sep rest = g :: gs) :
    splitOnChar sep (c :: rest) = (c :: g) :: gs := by
  rw [splitOnChar, if_neg h, hs]

theorem splitOnChar_filter (sep : Char) (p : Char → Bool) (hsep : p sep = true) :
    ∀ cs : List Char,
      splitOnChar sep (cs.filter p) = (splitOnChar sep cs).map (List.filter p) := by
  intro cs
  induction cs with
  | nil => rfl
  | cons c rest ih =>
    obtain ⟨g, gs, hgs⟩ : ∃ g gs, splitOnChar sep rest = g :: gs := by
      cases hs : splitOnChar sep rest with
      | nil => exact absurd hs (splitOnChar_ne_nil sep rest)
      | cons g gs => exact ⟨g, gs, rfl⟩
    by_cases hc : c = sep
    · subst hc
      rw [List.filter_cons, if_pos hsep, splitOnChar_cons_eq, splitOnChar_cons_eq,
        List.map_cons, ih, List.filter_nil]
    · have hmap : splitOnChar sep (rest.filter p) = (g.filter p) :: gs.map (List.filter p) := by
        rw [ih, hgs, List.map_cons]
      by_cases hp : p c = true
      · rw [List.filter_cons, if_pos hp, splitOnChar_cons_ne sep c _ hc hmap,
          splitOnChar_cons_ne sep c rest hc hgs, List.map_cons, List.filter_cons, if_pos hp]
      · rw [List.filter_cons, if_neg hp, hmap, splitOnChar_cons_ne sep c rest hc hgs,
          List.map_cons, List.filter_cons, if_neg hp]

theorem mem_takeWhile_sat {α : Type} {p : α → Bool} :
    ∀ {l : List α} {x : α}, x ∈ l.takeWhile p → p x = true := by
  intro l
  induction l with
  | nil => intro x h; simp at h
  | cons a t ih =>
    intro x h
    rw [List.takeWhile_cons] at h
    by_cases ha : p a = true
    · rw [if_pos ha] at h
      rcases List.mem_cons.mp h with he | he
      · rw [he]; exact ha
      · exact ih he
    · rw [if_neg ha] at h; simp at h

theorem filter_eq_trim {cs : List Char} (h : ∀ c ∈ trimSpaces cs, c ≠ ' ') :
    cs.filter (fun c => c ≠ ' ') = trimSpaces cs := by
  have h1 : cs.filter (fun c => c ≠ ' ')
      = (cs.dropWhile (fun c => c = ' ')).filter (fun c => c ≠ ' ') := by
    conv_lhs => rw [← List.takeWhile_append_dropWhile (fun c => c = ' ') cs]
    rw [List.filter_append]
    have h0 : (cs.takeWhile (fun c => c = ' ')).filter (fun c => c ≠ ' ') = [] := by
      rw [List.filter_eq_nil_iff]
      intro a ha
      have ha' := mem_takeWhile_sat ha
      simp only [decide_eq_true_eq] at ha'
      simp [ha']
    rw [h0, List.nil_append]
  set d := cs.dropWhile (fun c => c = ' ') with hd
  have h2 : d.filter (fun c => c ≠ ' ')
      = ((d.reverse.filter (fun c => c ≠ ' '))).reverse := by
    rw [List.filter_reverse, List.reverse_reverse]
  have h3 : d.reverse.filter (fun c => c ≠ ' ')
      = d.reverse.dropWhile (fun c => c = ' ') := by
    conv_lhs => rw [← List.takeWhile_append_dropWhile (fun c => c = ' ') d.reverse]
    rw [List.filter_append]
    have h0 : (d.reverse.takeWhile (fun c => c = ' ')).filter (fun c => c ≠ ' ') = [] := by
      rw [List.filter_eq_nil_iff]
      intro a ha
      have ha' := mem_takeWhile_sat ha
      simp only [decide_eq_true_eq] at ha'
      simp [ha']
    have h5 : (d.reverse.dropWhile (fun c => c = ' ')).filter (fun c => c ≠ ' ')
        = d.reverse.dropWhile (fun c => c = ' ') := by
      rw [List.filter_eq_self]
      intro a ha
      have hmem : a ∈ trimSpaces cs := by
        rw [trimSpaces, ← hd, List.mem_reverse]
        exact ha
      simp only [decide_eq_true_eq]
      exact h a hmem
    rw [h0, List.nil_append, h5]
  rw [h1, h2, h3, trimSpaces, ← hd]

/-- Claim C8, amended: the dispatcher derives the YOLO class list by removing
EVERY space character and then splitting on commas; this agrees with the
claim's per-entry surrounding-whitespace trim exactly when no trimmed entry
contains an interior space (as in the spec's example `" cat, dog "`, which
yields `["cat", "dog"]` either way). -/
theorem c8_class_names_trim_refinement (s : String)
    (h : ∀ e ∈ specTrimSplit s, ∀ c ∈ e.data, c ≠ ' ') :
    deriveClassNames s = specTrimSplit s := by
  rw [deriveClassNames, specTrimSplit]
  have hdata : (removeSpaces s).data = s.data.filter (fun c => c ≠ ' ') := rfl
  rw [hdata, splitOnChar_filter ',' (fun c => c ≠ ' ') (by decide) s.data, List.map_map]
  refine List.map_congr_left (fun g hg => ?_)
  have hmem : (⟨trimSpaces g⟩ : String) ∈ specTrimSplit s := by
    rw [specTrimSplit]
    exact List.mem_map.mpr ⟨g, hg, rfl⟩
  have htrim : ∀ c ∈ trimSpaces g, c ≠ ' ' := fun c hc => h _ hmem c hc
  show (⟨g.filter (fun c => c ≠ ' ')⟩ : String) = (⟨trimSpaces g⟩ : String)
  rw [filter_eq_trim htrim]

/-- Witness for the amended C8 at the spec's own example parameter. -/
theorem c8_class_names_trim_refinement_witness :
    deriveClassNames " cat, dog " = specTrimSplit " cat, dog " ∧
    deriveClassNames " cat, dog " = ["cat", "dog"] :=
  ⟨c8_class_names_trim_refinement " cat, dog " (by decide), rfl⟩

/-- Claim C3: renumbering a section whose keys are `a, a_1, a_3, b` (any
values) yields exactly the keys `a_1, a_2, a_3, b_1` in that order; and in
general, for every section and every base `b`, the output keys whose base is
`b` are exactly `b_1 … b_n` in that dense 1-based order, where `n` is the
number of input keys with base `b`. -/
theorem c3_dense_renumbering :
    (∀ v1 v2 v3 v4 : Val,
      renumberSection [("a", v1), ("a_1", v2), ("a_3", v3), ("b", v4)] =
        [("a_1", v1), ("a_2", v2), ("a_3", v3), ("b_1", v4)]) ∧
    ∀ (l : List (String × Val)) (b : String),
      ((renumberSection l).map Prod.fst).filter (fun k => baseKey k = b) =
        (List.range' 1 (l.countP (fun p => baseKey p.1 = b))).map (newKey b) :=
  ⟨fun _ _ _ _ => rfl, renumber_filter_base⟩

/-- Claim C4: the key renumbering is idempotent — both the whole-record
normalizer and the per-section renumbering give the same result when applied
twice as when applied once (same keys, same order, same values). -/
theorem c4_renumber_idempotent :
    (∀ record : List (String × Val),
      normalizeNested (normalizeNested record) = normalizeNested record) ∧
    ∀ l : List (String × Val),
      renumberSection (renumberSection l) = renumberSection l :=
  ⟨normalizeNested_idem, renumberSection_idem⟩

/-- Claim C5: the normalizer is a pure function of its input (the source
operates on a deep copy, `to_task.py:277`, so the caller's record is left
untouched — purity of this embedding), the record's key sequence is preserved
exactly, and every top-level entry whose key is not one of the five
significant sections passes through unchanged at its original position. -/
theorem c5_frame_preservation (record : List (String × Val)) :
    (normalizeNested record).length = record.length ∧
    (normalizeNested record).map Prod.fst = record.map Prod.fst ∧
    ∀ (i : Nat) (p : String × Val), record[i]? = some p → p.1 ∉ targetKeys →
      (normalizeNested record)[i]? = some p := by
  refine ⟨by rw [normalizeNested, List.length_map], ?_, ?_⟩
  · rw [normalizeNested, List.map_map]
    refine List.map_congr_left (fun p _ => ?_)
    by_cases h : p.1 ∈ targetKeys
    · cases hv : p.2 with
      | vdict l => simp [Function.comp, h, hv]
      | leaf m => simp [Function.comp, h, hv]
    · simp [Function.comp, h]
  · intro i p hi hp
    rw [normalizeNested, List.getElem?_map, hi]
    simp [hp]

/-- Witness for C5 at a record with a non-significant field before a
significant one. -/
theorem c5_frame_preservation_witness :
    (normalizeNested [("meta", Val.leaf 7),
        ("annotations", Val.vdict [("pt", Val.leaf 1)])]).length =
      ([("meta", Val.leaf 7),
        ("annotations", Val.vdict [("pt", Val.leaf 1)])] : List (String × Val)).length ∧
    (normalizeNested [("meta", Val.leaf 7),
        ("annotations", Val.vdict [("pt", Val.leaf 1)])]).map Prod.fst =
      [("meta", Val.leaf 7), ("annotations", Val.vdict [("pt", Val.leaf 1)])].map Prod.fst ∧
    (normalizeNested [("meta", Val.leaf 7),
        ("annotations", Val.vdict [("pt", Val.leaf 1)])])[0]? =
      some ("meta", Val.leaf 7) :=
  have h := c5_frame_preservation
    [("meta", Val.leaf 7), ("annotations", Val.vdict [("pt", Val.leaf 1)])]
  ⟨h.1, h.2.1, h.2.2 0 ("meta", Val.leaf 7) rfl (by decide)⟩

/-- Counterexample to claim C6 as stated: for the section with keys
`a, b, a_2` the renumbered output is ordered `a_1, a_2, b_1` — grouped by
base — so position 2 pairs original key `b` with normalized key `a_2`
(whose base is not `b`), and the value sequence is permuted, not preserved
positionally. -/
theorem c6_positional_alignment_counterexample :
    renumberSection [("a", Val.leaf 0), ("b", Val.leaf 1), ("a_2", Val.leaf 2)] =
      [("a_1", Val.leaf 0), ("a_2", Val.leaf 2), ("b_1", Val.leaf 1)] ∧
    keyMappings [("a", Val.leaf 0), ("b", Val.leaf 1), ("a_2", Val.leaf 2)]
        (renumberSection [("a", Val.leaf 0), ("b", Val.leaf 1), ("a_2", Val.leaf 2)]) =
      [("a", "a_1"), ("b", "a_2"), ("a_2", "b_1")] ∧
    baseKey "a_2" ≠ "b" ∧
    (renumberSection [("a", Val.leaf 0), ("b", Val.leaf 1), ("a_2", Val.leaf 2)]).map
        Prod.snd ≠
      [("a", Val.leaf 0), ("b", Val.leaf 1), ("a_2", Val.leaf 2)].map Prod.snd := by
  refine ⟨rfl, rfl, by decide, ?_⟩
  rw [show (renumberSection
        [("a", Val.leaf 0), ("b", Val.leaf 1), ("a_2", Val.leaf 2)]).map Prod.snd
      = [Val.leaf 0, Val.leaf 2, Val.leaf 1] from rfl,
    show [("a", Val.leaf 0), ("b", Val.leaf 1), ("a_2", Val.leaf 2)].map Prod.snd
      = [Val.leaf 0, Val.leaf 1, Val.leaf 2] from rfl]
  simp

/-- Claim C6, amended: renumbering always preserves the number of keys of a
section, and the output is ordered grouped by base key (buckets in
first-appearance order, members in original order); hence the positional zip
of the companion diff aligns equal counts always, and aligns values
position-by-position exactly when the original section's keys are already
contiguous by base — stated as the hypothesis that concatenating the base-key
buckets reproduces the section. -/
theorem c6_alignment_when_grouped (l : List (String × Val))
    (h : (keyBases l).flatMap (fun b => groupOf l b) = l) :
    (renumberSection l).length = l.length ∧
    (renumberSection l).map Prod.snd = l.map Prod.snd :=
  ⟨renumberSection_length l, renumber_vals_of_grouped h⟩

/-- Witness for the amended C6 on a base-contiguous section. -/
theorem c6_alignment_when_grouped_witness :
    (renumberSection [("a", Val.leaf 0), ("a_3", Val.leaf 1), ("b", Val.leaf 2)]).length =
      ([("a", Val.leaf 0), ("a_3", Val.leaf 1), ("b", Val.leaf 2)] :
        List (String × Val)).length ∧
    (renumberSection [("a", Val.leaf 0), ("a_3", Val.leaf 1), ("b", Val.leaf 2)]).map
        Prod.snd =
      [("a", Val.leaf 0), ("a_3", Val.leaf 1), ("b", Val.leaf 2)].map Prod.snd :=
  c6_alignment_when_grouped
    [("a", Val.leaf 0), ("a_3", Val.leaf 1), ("b", Val.leaf 2)] rfl

/-- Claim C10: the key reassignment is injective — the renumbered section has
exactly as many entries as the input, its keys are pairwise distinct (even
when bases such as `a`, `a_1` and `a_1_2` coexist), and every input value
still appears under some key. -/
theorem c10_injective_reassignment (l : List (String × Val)) :
    (renumberSection l).length = l.length ∧
    ((renumberSection l).map Prod.fst).Nodup ∧
    ∀ p ∈ l, ∃ k, (k, p.2) ∈ renumberSection l :=
  ⟨renumberSection_length l, renumberSection_keys_nodup l, renumber_value_present l⟩

/-- Witness for C10 on a section mixing the nested bases `a`, `a_1`, `a_1_2`. -/
theorem c10_injective_reassignment_witness :
    (renumberSection
        [("a", Val.leaf 0), ("a_1", Val.leaf 1), ("a_1_2", Val.leaf 2)]).length =
      ([("a", Val.leaf 0), ("a_1", Val.leaf 1), ("a_1_2", Val.leaf 2)] :
        List (String × Val)).length ∧
    ((renumberSection
        [("a", Val.leaf 0), ("a_1", Val.leaf 1), ("a_1_2", Val.leaf 2)]).map
      Prod.fst).Nodup ∧
    ∃ k, (k, Val.leaf 2) ∈
      renumberSection [("a", Val.leaf 0), ("a_1", Val.leaf 1), ("a_1_2", Val.leaf 2)] :=
  have h := c10_injective_reassignment
    [("a", Val.leaf 0), ("a_1", Val.leaf 1), ("a_1_2", Val.leaf 2)]
  ⟨h.1, h.2.1, h.2.2 ("a_1_2", Val.leaf 2)
    (List.mem_cons_of_mem _ (List.mem_cons_of_mem _ (List.mem_cons_self _ _)))⟩
